import Mathlib

/-!
Verification of the `serialize-to-javascript` crate: the JSON-to-JavaScript
escaper (`escape_json_parse`, `estimated_capacity`, `FREEZE_REVIVER`,
`Options` from `src/lib.rs` / `src/private.rs`) and the template renderer
produced by `#[derive(Template)]` (`src/impl/src/lib.rs`).

Strings are modelled as `List Char` (Rust `&str` viewed as its character
sequence); where byte-level behaviour matters (UTF-8 indices for the scan
loop) we additionally model the string as its UTF-8 byte list via
`utf8Encode`.  Machine integers that index into strings are `Nat`.
-/

namespace StJ

/-- The escape predicate of the scan loop: `|c| c == '\\' || c == '\''`
(`src/lib.rs` line 215, `src/private.rs` line 59). -/
def isEscChar (c : Char) : Bool :=
  c == '\\' || c == '\''

/-- The escape predicate at the UTF-8 byte level: byte `0x5C` (backslash)
or byte `0x27` (single quote).  In valid UTF-8 these byte values occur
exactly at the ASCII characters `\` and `'`. -/
def isEscByte (b : Nat) : Bool :=
  b == 0x5C || b == 0x27

/-- Model of Rust `str::match_indices` with a single-element predicate
pattern, starting at offset `k`: the offsets (in elements, left to right)
of every element satisfying `p`. -/
def matchIndicesFrom (p : α → Bool) : Nat → List α → List Nat
  | _, [] => []
  | k, x :: xs =>
    if p x then k :: matchIndicesFrom p (k + 1) xs
    else matchIndicesFrom p (k + 1) xs

/-- Offsets of all elements of `s` satisfying `p`, as yielded by
`s.match_indices(p)`. -/
def matchIndicesP (p : α → Bool) (s : List α) : List Nat :=
  matchIndicesFrom p 0 s

/-- One iteration of the scan loop of `escape_json_parse`
(`src/lib.rs` lines 215-219): given loop state `(buf, last)` and the next
match offset `idx`, push the unescaped slice `json[last..idx]`, push one
backslash (`e`), and set `last = idx`.  Generic in the element type so the
same loop serves the character-level and the byte-level model. -/
def escStep (e : α) (json : List α) (st : List α × Nat) (idx : Nat) :
    List α × Nat :=
  (st.1 ++ (json.drop st.2).take (idx - st.2) ++ [e], idx)

/-- The whole scan loop of `escape_json_parse`: fold `escStep` over the
match offsets starting from `(buf, last) = ([], 0)`, then push the
trailing slice `json[last..]` (`src/lib.rs` lines 214-222). -/
def escLoop (e : α) (p : α → Bool) (json : List α) : List α :=
  let st := (matchIndicesP p json).foldl (escStep e json) ([], 0)
  st.1 ++ json.drop st.2

/-- The specification-side description of the loop body: insert one `e`
before every element satisfying `p`, leaving every other element
unchanged.  (Spec: "with exactly two characters escaped — backslash and
single-quote — by prefixing each occurrence with a backslash".) -/
def escBody (e : α) (p : α → Bool) : List α → List α
  | [] => []
  | c :: cs => if p c then e :: c :: escBody e p cs else c :: escBody e p cs

/-- `FREEZE_REVIVER` (`src/lib.rs` line 70): JavaScript code for the
`JSON.parse()` reviver used when `Options.freeze` is set. -/
def FREEZE_REVIVER : List Char :=
  ",(_,v)=>Object.freeze(v)".data

/-- `Options` (`src/lib.rs` lines 98-112): `freeze` wraps the parsed JSON
with `Object.freeze`, `buf` is the extra byte capacity to reserve. -/
structure Options where
  freeze : Bool
  buf : Nat
deriving Repr, DecidableEq

/-- `Options::default()`: `freeze = false`, `buf = 0` (the `Default`
derive on the Rust struct). -/
def Options.default : Options :=
  ⟨false, 0⟩

/-- UTF-8 encoding of one character (RFC 3629), used to model Rust's byte
indices into `&str`. -/
def utf8EncodeChar (c : Char) : List Nat :=
  let n := c.toNat
  if n < 0x80 then [n]
  else if n < 0x800 then [0xC0 + n / 64, 0x80 + n % 64]
  else if n < 0x10000 then
    [0xE0 + n / 4096, 0x80 + n / 64 % 64, 0x80 + n % 64]
  else
    [0xF0 + n / 0x40000, 0x80 + n / 4096 % 64, 0x80 + n / 64 % 64,
      0x80 + n % 64]

/-- UTF-8 encoding of a character list: the byte content of the Rust
`&str`. -/
def utf8Encode : List Char → List Nat
  | [] => []
  | c :: cs => utf8EncodeChar c ++ utf8Encode cs

/-- Byte length of the string, i.e. Rust `str::len`. -/
def utf8Length (s : List Char) : Nat :=
  (utf8Encode s).length

/-- `estimated_capacity` (`src/lib.rs` lines 170-186): 14 bytes for
`JSON.parse('')`, plus the byte length of the JSON, plus the
user-supplied extra buffer, plus the reviver length when freezing. -/
def estimated_capacity (json : List Char) (options : Options) : Nat :=
  14 + utf8Length json + options.buf +
    (if options.freeze then FREEZE_REVIVER.length else 0)

/-- `escape_json_parse` (`src/lib.rs` lines 206-237): build
`JSON.parse('…')` around the escaped JSON, inserting the freeze reviver
before the closing parenthesis when `options.freeze` is set.  The
requested capacity never affects the produced characters (Rust
`String::with_capacity` only pre-allocates), which the model records by
computing and discarding it. -/
def escape_json_parse (json : List Char) (options : Options) : List Char :=
  let _capacity := estimated_capacity json options
  "JSON.parse('".data ++ escLoop '\\' isEscChar json ++ ['\''] ++
    (if options.freeze then FREEZE_REVIVER else []) ++ [')']

/-- JavaScript single-character escape table (ECMA-262
SingleEscapeCharacter and NonEscapeCharacter): what `\c` denotes inside a
string literal.  The escaper only ever produces `\\` and `\'`, for which
the table is the identity; the remaining entries model the engine
faithfully for the single-character escapes. -/
def jsUnescape (c : Char) : Char :=
  if c = 'n' then '\n'
  else if c = 't' then '\t'
  else if c = 'r' then '\r'
  else if c = 'b' then '\x08'
  else if c = 'f' then '\x0c'
  else if c = 'v' then '\x0b'
  else if c = '0' then '\x00'
  else c

/-- A JavaScript engine reading a single-quoted string literal, started
just after the opening quote: returns the denoted character sequence and
the source text following the closing quote, or `none` when the literal
is unterminated or contains a raw line terminator.  (Per ES2019, U+2028
and U+2029 are allowed unescaped; `\n` and `\r` are not.) -/
def jsLexSQ : List Char → Option (List Char × List Char)
  | [] => none
  | c :: rest =>
    if c = '\'' then some ([], rest)
    else if c = '\\' then
      match rest with
      | [] => none
      | d :: rest' => (jsLexSQ rest').map fun p => (jsUnescape d :: p.1, p.2)
    else if c = '\n' ∨ c = '\r' then none
    else (jsLexSQ rest).map fun p => (c :: p.1, p.2)

/-- The argument text a JavaScript engine would hand to `JSON.parse` when
evaluating an escaper output: the text must be exactly
`JSON.parse('…')` and the `…` is read as a single-quoted literal. -/
def jsEvalParseArg (out : List Char) : Option (List Char) :=
  if "JSON.parse('".data.isPrefixOf out then
    match jsLexSQ (out.drop 12) with
    | some (s, rest) => if rest = [')'] then some s else none
    | none => none
  else none

/-- `serde_json::Error` surfaced by a failed field serialization; the
renderer only moves it around, so only its identity matters. -/
structure SerError where
  msg : List Char
deriving Repr, DecidableEq

/-- A template field's value access, as generated by `derive_template`
(`src/impl/src/lib.rs` lines 51-74).  An `escaped` field runs
`serde_json::to_string` (which may fail); a `raw` field runs
`Display::to_string` (which cannot fail).  Both are modelled as state
transformers over an abstract state `σ` so that the number of times a
value generator runs is observable. -/
inductive FieldVal (σ : Type) where
  | escaped (gen : σ → Except SerError (List Char) × σ)
  | raw (gen : σ → List Char × σ)

/-- One named template field: the struct field's identifier and its value
access. -/
structure TemplateField (σ : Type) where
  name : List Char
  val : FieldVal σ

/-- Whether the field carries the `#[raw]` attribute. -/
def TemplateField.isRaw (f : TemplateField σ) : Bool :=
  match f.val with
  | .raw _ => true
  | .escaped _ => false

/-- The placeholder searched for in the template:
`format!("__RAW_{}__", ident)` for raw fields and
`format!("__TEMPLATE_{}__", ident)` otherwise
(`src/impl/src/lib.rs` lines 52 and 59). -/
def placeholderOf (isRaw : Bool) (name : List Char) : List Char :=
  (if isRaw then "__RAW_".data else "__TEMPLATE_".data) ++ name ++ "__".data

/-- The placeholder of a field. -/
def TemplateField.placeholder (f : TemplateField σ) : List Char :=
  placeholderOf f.isRaw f.name

/-- The replacement text of one field, computed once per render
(`let data: String = …` in the generated code):
`self.field.to_string()` for raw fields;
`NotYetSerialized(&self.field).try_into()?` followed by
`.into_javascript_string_literal(options)` for escaped fields, i.e. the
serialized JSON passed through `escape_json_parse` with the caller's
options. -/
def computedText (opts : Options) (f : TemplateField σ) (s : σ) :
    Except SerError (List Char) × σ :=
  match f.val with
  | .raw g => let r := g s; (.ok r.1, r.2)
  | .escaped g =>
    let r := g s
    (r.1.map fun j => escape_json_parse j opts, r.2)

/-- Rust `str::replace` with a nonempty needle, with explicit fuel so the
definition is structural (fuel `t.length` always suffices since every
step consumes at least one character): at each position, if the needle
matches, emit the replacement and skip the needle, otherwise keep the
character.  The crate only calls this with the (always nonempty)
placeholder as needle; for an empty needle the model returns the text
unchanged (unreachable here). -/
def replaceAllAux (pat rep : List Char) : Nat → List Char → List Char
  | _, [] => []
  | 0, t => t
  | fuel + 1, c :: rest =>
    if pat ≠ [] ∧ pat.isPrefixOf (c :: rest) then
      rep ++ replaceAllAux pat rep fuel ((c :: rest).drop pat.length)
    else c :: replaceAllAux pat rep fuel rest

/-- `template.replace(pattern, replacement)`. -/
def replaceAll (pat rep t : List Char) : List Char :=
  replaceAllAux pat rep t.length t

/-- The segments of `t` between the (greedy, left-to-right,
non-overlapping) occurrences of `pat`, mirroring `replaceAllAux` step for
step: `replaceAll` substitutes the replacement for `pat` between exactly
these segments. -/
def splitGreedyAux (pat : List Char) : Nat → List Char → List (List Char)
  | _, [] => [[]]
  | 0, t => [t]
  | fuel + 1, c :: rest =>
    if pat ≠ [] ∧ pat.isPrefixOf (c :: rest) then
      [] :: splitGreedyAux pat fuel ((c :: rest).drop pat.length)
    else (splitGreedyAux pat fuel rest).modifyHead (c :: ·)

/-- Segments of `t` between greedy occurrences of `pat`. -/
def splitGreedy (pat t : List Char) : List (List Char) :=
  splitGreedyAux pat t.length t

/-- The body of the generated `Template::render`
(`src/impl/src/lib.rs` lines 76-104): for each field in declaration
order, compute its replacement text once (propagating a serialization
error immediately with `?`, before any later field is touched), replace
every occurrence of the field's placeholder in the current template text,
and finally return the fully substituted template. -/
def renderFields (opts : Options) :
    List (TemplateField σ) → List Char → σ → Except SerError (List Char) × σ
  | [], tmpl, s => (.ok tmpl, s)
  | f :: fs, tmpl, s =>
    match computedText opts f s with
    | (.error e, s') => (.error e, s')
    | (.ok d, s') => renderFields opts fs (replaceAll f.placeholder d tmpl) s'

/-- The state effect of accessing one field's value (running its
serializer or `Display` impl) exactly once, together with whether it
succeeded.  Note it does not depend on the options or the template. -/
def genStep (f : TemplateField σ) (s : σ) : Except SerError Unit × σ :=
  match f.val with
  | .raw g => (.ok (), (g s).2)
  | .escaped g => let r := g s; (r.1.map fun _ => (), r.2)

/-- The state after running each field's value access exactly once, in
order, stopping at the first serialization failure — independent of the
template text, of the options, and of how often (or whether) each
placeholder occurs. -/
def genStates : List (TemplateField σ) → σ → σ
  | [], s => s
  | f :: fs, s =>
    match genStep f s with
    | (.error _, s') => s'
    | (.ok _, s') => genStates fs s'

/-- Whether every field's value access succeeds when run in order from
state `s`. -/
def allSucceedB : List (TemplateField σ) → σ → Bool
  | [], _ => true
  | f :: fs, s =>
    match genStep f s with
    | (.error _, _) => false
    | (.ok _, s') => allSucceedB fs s'

/-- The rendered text a field contributes: the raw display text for raw
fields, the escaped JSON literal for escaped fields. -/
def computedOf (opts : Options) (isRaw : Bool) (t : List Char) : List Char :=
  if isRaw then t else escape_json_parse t opts

/-- A field whose value access is a pure function of nothing: it always
yields the fixed text `t`.  Raw fields display `t`; escaped fields
serialize to `t`. -/
def pureTF (name : List Char) (isRaw : Bool) (t : List Char) :
    TemplateField Unit :=
  if isRaw then ⟨name, .raw fun s => (t, s)⟩
  else ⟨name, .escaped fun s => (.ok t, s)⟩

/-- A field whose value access increments a counter, making the number of
invocations of the (side-effecting) value generator observable in the
final state. -/
def counterTF (name : List Char) (isRaw : Bool) (t : List Char) :
    TemplateField Nat :=
  if isRaw then ⟨name, .raw fun n => (t, n + 1)⟩
  else ⟨name, .escaped fun n => (.ok t, n + 1)⟩

/-- Projection of a render result to its document, discarding the error
message. -/
def getOk : Except SerError (List Char) → Option (List Char)
  | .ok d => some d
  | .error _ => none

/-- A token of a structured template document: a literal chunk or a
placeholder of field `i`. -/
inductive Tok (n : Nat) where
  | lit (s : List Char)
  | ph (i : Fin n)

/-- Flatten a token list to a document, reading each placeholder token
through `f`. -/
def flattenWith (f : Fin n → List Char) : List (Tok n) → List Char
  | [] => []
  | .lit s :: ts => s ++ flattenWith f ts
  | .ph i :: ts => f i ++ flattenWith f ts

/-- Read placeholder `j` as its replacement text `D j` when `sel j` is
set and as the placeholder text `P j` otherwise: the intermediate
documents of a render that has processed the fields selected by `sel`. -/
def mixSel (P D : Fin n → List Char) (sel : Fin n → Bool) (j : Fin n) :
    List Char :=
  if sel j then D j else P j

/-- The substitution steps of a render are faithful on the token document
`toks`: replacing field `i`'s placeholder in any intermediate document
substitutes exactly the `ph i` tokens and leaves everything else intact.
This is the spec's side condition that placeholder occurrences are exact,
non-overlapping, and never re-created by substituted text. -/
def FaithfulSubst (P D : Fin n → List Char) (toks : List (Tok n)) : Prop :=
  ∀ i : Fin n, ∀ sel : Fin n → Bool, sel i = false →
    replaceAll (P i) (D i) (flattenWith (mixSel P D sel) toks) =
      flattenWith (mixSel P D fun j => if j = i then true else sel j) toks

instance (P D : Fin n → List Char) (toks : List (Tok n)) :
    Decidable (FaithfulSubst P D toks) := by
  unfold FaithfulSubst
  infer_instance

/-- A two-value serializer (a minimal stand-in for the external, assumed
correct `serde_json` encoder): `true ↦ true`, `false ↦ false` compact
JSON. -/
def serBool (v : Bool) : List Char :=
  if v then "true".data else "false".data

/-- The matching decoder, the stand-in for the runtime's native
`JSON.parse`. -/
def parBool (t : List Char) : Option Bool :=
  if t = "true".data then some true
  else if t = "false".data then some false
  else none

/-- A raw field named `a` whose (attacker-chosen) display text is another
field's placeholder. -/
def cexFieldA : TemplateField Unit :=
  ⟨"a".data, .raw fun s => ("__RAW_b__".data, s)⟩

/-- A raw field named `b` with display text `B`. -/
def cexFieldB : TemplateField Unit :=
  ⟨"b".data, .raw fun s => ("B".data, s)⟩

/-- A template mentioning both placeholders. -/
def cexDoc : List Char :=
  "__RAW_a__ __RAW_b__".data

/-! ### The scan loop produces the escaped body

The loop of `escape_json_parse` sets `last = idx` (not `idx + 1`) at each
match, so the matched character itself is emitted by the *next* slice;
the net effect is one backslash inserted before each matched character.
The lemmas below prove the index-fold formulation equal to the direct
recursive description `escBody`. -/

theorem matchIndicesFrom_shift (p : α → Bool) (xs : List α) (k : Nat) :
    matchIndicesFrom p k xs = (matchIndicesFrom p 0 xs).map (· + k) := by
  induction xs generalizing k with
  | nil => simp [matchIndicesFrom]
  | cons x xs ih =>
    have hmap : ((matchIndicesFrom p 0 xs).map (· + 1)).map (· + k) =
        (matchIndicesFrom p 0 xs).map (· + (k + 1)) := by
      rw [List.map_map]
      refine List.map_congr_left fun a _ => ?_
      simp only [Function.comp_apply]
      omega
    by_cases h : p x
    · simp only [matchIndicesFrom, h, if_true, List.map_cons,
        ih (k + 1), ih 1, hmap, Nat.zero_add]
    · simp only [matchIndicesFrom, h, Bool.false_eq_true, if_false,
        ih (k + 1), ih 1, hmap]

theorem matchIndicesP_cons (p : α → Bool) (x : α) (xs : List α) :
    matchIndicesP p (x :: xs) =
      if p x then 0 :: (matchIndicesP p xs).map (· + 1)
      else (matchIndicesP p xs).map (· + 1) := by
  by_cases h : p x <;>
    simp [matchIndicesP, matchIndicesFrom, h, matchIndicesFrom_shift p xs 1]

theorem matchIndicesFrom_eq_nil_iff (p : α → Bool) (xs : List α) (k : Nat) :
    matchIndicesFrom p k xs = [] ↔ ∀ x ∈ xs, p x = false := by
  induction xs generalizing k with
  | nil => simp [matchIndicesFrom]
  | cons x xs ih =>
    by_cases h : p x
    · simp [matchIndicesFrom, h]
    · have hf : p x = false := by
        cases hpx : p x
        · rfl
        · exact absurd hpx h
      simp [matchIndicesFrom, hf, ih (k + 1)]

theorem escBody_eq_self (e : α) (p : α → Bool) (xs : List α)
    (h : ∀ x ∈ xs, p x = false) : escBody e p xs = xs := by
  induction xs with
  | nil => rfl
  | cons x xs ih =>
    simp only [escBody, h x (by simp), Bool.false_eq_true, if_false]
    exact congrArg (x :: ·) (ih fun y hy => h y (by simp [hy]))

theorem escStep_prepend (e : α) (json : List α) (L : List Nat)
    (pre buf : List α) (l : Nat) :
    L.foldl (escStep e json) (pre ++ buf, l) =
      (pre ++ (L.foldl (escStep e json) (buf, l)).1,
        (L.foldl (escStep e json) (buf, l)).2) := by
  induction L generalizing buf l with
  | nil => rfl
  | cons i L ih =>
    simp only [List.foldl_cons, escStep, List.append_assoc]
    exact ih ((buf ++ ((json.drop l).take (i - l) ++ [e]))) i

theorem escStep_shift (e c : α) (cs : List α) (L : List Nat)
    (buf : List α) (l : Nat) :
    (L.map (· + 1)).foldl (escStep e (c :: cs)) (buf, l + 1) =
      ((L.foldl (escStep e cs) (buf, l)).1,
        (L.foldl (escStep e cs) (buf, l)).2 + 1) := by
  induction L generalizing buf l with
  | nil => rfl
  | cons i L ih =>
    simp only [List.map_cons, List.foldl_cons, escStep, List.drop_succ_cons,
      Nat.succ_sub_succ]
    exact ih (buf ++ (cs.drop l).take (i - l) ++ [e]) i

theorem escStep_core (e c : α) (cs : List α) (i : Nat) (L : List Nat)
    (pre : List α) :
    (((i :: L).map (· + 1)).foldl (escStep e (c :: cs)) (pre, 0)) =
      (pre ++ c :: ((i :: L).foldl (escStep e cs) ([], 0)).1,
        ((i :: L).foldl (escStep e cs) ([], 0)).2 + 1) := by
  have h1 : escStep e (c :: cs) (pre, 0) (i + 1) =
      ((pre ++ [c]) ++ ((cs.take i) ++ [e]), i + 1) := by
    simp [escStep, List.append_assoc]
  have h2 : escStep e cs ([], 0) i = ((cs.take i) ++ [e], i) := by
    simp [escStep]
  simp only [List.map_cons, List.foldl_cons, h1, h2]
  rw [escStep_shift e c cs L, escStep_prepend e cs L (pre ++ [c])]
  simp [List.append_assoc]

theorem escLoop_unfold (e : α) (p : α → Bool) (json : List α) :
    escLoop e p json =
      ((matchIndicesP p json).foldl (escStep e json) ([], 0)).1 ++
        json.drop ((matchIndicesP p json).foldl (escStep e json) ([], 0)).2 :=
  rfl

theorem escLoop_eq_escBody (e : α) (p : α → Bool) (json : List α) :
    escLoop e p json = escBody e p json := by
  induction json with
  | nil => simp [escLoop, matchIndicesP, matchIndicesFrom, escBody]
  | cons c cs ih =>
    rcases hL : matchIndicesP p cs with _ | ⟨i, L⟩
    · have hall : ∀ x ∈ cs, p x = false :=
        (matchIndicesFrom_eq_nil_iff p cs 0).mp hL
      by_cases h : p c
      · rw [escLoop_unfold, matchIndicesP_cons, if_pos h, hL]
        simp only [List.map_nil, List.foldl_cons, List.foldl_nil]
        rw [show escStep e (c :: cs) ([], 0) 0 = ([e], 0) from by
          simp [escStep]]
        simp only [escBody, h, if_true, List.drop_zero,
          escBody_eq_self e p cs hall]
        simp
      · rw [escLoop_unfold, matchIndicesP_cons, if_neg h, hL]
        simp only [List.map_nil, List.foldl_nil, List.drop_zero, escBody, h,
          Bool.false_eq_true, if_false, escBody_eq_self e p cs hall]
        simp
    · have hcs : ((i :: L).foldl (escStep e cs) ([], 0)).1 ++
          cs.drop ((i :: L).foldl (escStep e cs) ([], 0)).2 = escBody e p cs := by
        rw [← ih, escLoop_unfold, hL]
      by_cases h : p c
      · rw [escLoop_unfold, matchIndicesP_cons, if_pos h, hL]
        simp only [List.foldl_cons]
        rw [show escStep e (c :: cs) ([], 0) 0 = ([e], 0) from by
          simp [escStep]]
        rw [escStep_core e c cs i L [e]]
        simp only [List.drop_succ_cons, escBody, h, if_true, ← hcs]
        simp
      · rw [escLoop_unfold, matchIndicesP_cons, if_neg h, hL]
        rw [escStep_core e c cs i L []]
        simp only [List.drop_succ_cons, List.nil_append, escBody, h,
          Bool.false_eq_true, if_false, ← hcs]
        simp

/-! ### `str::replace`: unfolding equations and the segment decomposition -/

theorem replaceAllAux_congr (pat rep : List Char) (fuel₁ : Nat) :
    ∀ (t : List Char) (fuel₂ : Nat), t.length ≤ fuel₁ → t.length ≤ fuel₂ →
      replaceAllAux pat rep fuel₁ t = replaceAllAux pat rep fuel₂ t := by
  induction fuel₁ with
  | zero =>
    intro t fuel₂ h1 _
    cases t with
    | nil => cases fuel₂ <;> rfl
    | cons c r => simp at h1
  | succ f ih =>
    intro t fuel₂ h1 h2
    cases t with
    | nil => cases fuel₂ <;> rfl
    | cons c r =>
      cases fuel₂ with
      | zero => simp at h2
      | succ f₂ =>
        simp only [replaceAllAux]
        have hlen : r.length ≤ f := by simpa using h1
        have hlen₂ : r.length ≤ f₂ := by simpa using h2
        by_cases hp : pat ≠ [] ∧ pat.isPrefixOf (c :: r)
        · rw [if_pos hp, if_pos hp]
          have hpat : 1 ≤ pat.length := List.length_pos.mpr hp.1
          have hdl : ((c :: r).drop pat.length).length ≤ f := by
            simp only [List.length_drop, List.length_cons]
            omega
          have hdl₂ : ((c :: r).drop pat.length).length ≤ f₂ := by
            simp only [List.length_drop, List.length_cons]
            omega
          rw [ih _ f₂ hdl hdl₂]
        · rw [if_neg hp, if_neg hp, ih r f₂ hlen hlen₂]

theorem replaceAll_cons (pat rep : List Char) (c : Char) (rest : List Char) :
    replaceAll pat rep (c :: rest) =
      if pat ≠ [] ∧ pat.isPrefixOf (c :: rest) then
        rep ++ replaceAll pat rep ((c :: rest).drop pat.length)
      else c :: replaceAll pat rep rest := by
  show replaceAllAux pat rep (rest.length + 1) (c :: rest) = _
  simp only [replaceAllAux]
  by_cases hp : pat ≠ [] ∧ pat.isPrefixOf (c :: rest)
  · rw [if_pos hp, if_pos hp]
    have hpat : 1 ≤ pat.length := List.length_pos.mpr hp.1
    refine congrArg (rep ++ ·) (replaceAllAux_congr pat rep rest.length _ _ ?_ le_rfl)
    simp only [List.length_drop, List.length_cons]
    omega
  · rw [if_neg hp, if_neg hp]
    rfl

theorem splitGreedyAux_congr (pat : List Char) (fuel₁ : Nat) :
    ∀ (t : List Char) (fuel₂ : Nat), t.length ≤ fuel₁ → t.length ≤ fuel₂ →
      splitGreedyAux pat fuel₁ t = splitGreedyAux pat fuel₂ t := by
  induction fuel₁ with
  | zero =>
    intro t fuel₂ h1 _
    cases t with
    | nil => cases fuel₂ <;> rfl
    | cons c r => simp at h1
  | succ f ih =>
    intro t fuel₂ h1 h2
    cases t with
    | nil => cases fuel₂ <;> rfl
    | cons c r =>
      cases fuel₂ with
      | zero => simp at h2
      | succ f₂ =>
        simp only [splitGreedyAux]
        have hlen : r.length ≤ f := by simpa using h1
        have hlen₂ : r.length ≤ f₂ := by simpa using h2
        by_cases hp : pat ≠ [] ∧ pat.isPrefixOf (c :: r)
        · rw [if_pos hp, if_pos hp]
          have hpat : 1 ≤ pat.length := List.length_pos.mpr hp.1
          have hdl : ((c :: r).drop pat.length).length ≤ f := by
            simp only [List.length_drop, List.length_cons]
            omega
          have hdl₂ : ((c :: r).drop pat.length).length ≤ f₂ := by
            simp only [List.length_drop, List.length_cons]
            omega
          rw [ih _ f₂ hdl hdl₂]
        · rw [if_neg hp, if_neg hp, ih r f₂ hlen hlen₂]

theorem splitGreedy_cons (pat : List Char) (c : Char) (rest : List Char) :
    splitGreedy pat (c :: rest) =
      if pat ≠ [] ∧ pat.isPrefixOf (c :: rest) then
        [] :: splitGreedy pat ((c :: rest).drop pat.length)
      else (splitGreedy pat rest).modifyHead (c :: ·) := by
  show splitGreedyAux pat (rest.length + 1) (c :: rest) = _
  simp only [splitGreedyAux]
  by_cases hp : pat ≠ [] ∧ pat.isPrefixOf (c :: rest)
  · rw [if_pos hp, if_pos hp]
    have hpat : 1 ≤ pat.length := List.length_pos.mpr hp.1
    refine congrArg ([] :: ·) (splitGreedyAux_congr pat rest.length _ _ ?_ le_rfl)
    simp only [List.length_drop, List.length_cons]
    omega
  · rw [if_neg hp, if_neg hp]
    rfl

theorem splitGreedyAux_ne_nil (pat : List Char) (fuel : Nat) (t : List Char) :
    splitGreedyAux pat fuel t ≠ [] := by
  induction fuel generalizing t with
  | zero => cases t <;> simp [splitGreedyAux]
  | succ f ih =>
    cases t with
    | nil => simp [splitGreedyAux]
    | cons c r =>
      simp only [splitGreedyAux]
      by_cases hp : pat ≠ [] ∧ pat.isPrefixOf (c :: r)
      · rw [if_pos hp]
        simp
      · rw [if_neg hp]
        rcases hs : splitGreedyAux pat f r with _ | ⟨x, xs⟩
        · exact absurd hs (ih r)
        · simp

theorem splitGreedy_ne_nil (pat t : List Char) : splitGreedy pat t ≠ [] :=
  splitGreedyAux_ne_nil pat t.length t

theorem intercalate_nil_head (s : List Char) (parts : List (List Char))
    (h : parts ≠ []) :
    List.intercalate s ([] :: parts) = s ++ List.intercalate s parts := by
  rcases parts with _ | ⟨y, zs⟩
  · exact absurd rfl h
  · simp [List.intercalate, List.intersperse]

theorem intercalate_modifyHead (s : List Char) (c : Char)
    (parts : List (List Char)) (h : parts ≠ []) :
    List.intercalate s (parts.modifyHead (c :: ·)) =
      c :: List.intercalate s parts := by
  rcases parts with _ | ⟨y, zs⟩
  · exact absurd rfl h
  · rcases zs with _ | ⟨z, ws⟩
    · simp [List.intercalate, List.intersperse]
    · simp [List.intercalate, List.intersperse]

theorem replaceAllAux_eq_intercalate (pat rep : List Char) (fuel : Nat) :
    ∀ t : List Char, t.length ≤ fuel →
      replaceAllAux pat rep fuel t =
        List.intercalate rep (splitGreedyAux pat fuel t) := by
  induction fuel with
  | zero =>
    intro t h1
    cases t with
    | nil => simp [replaceAllAux, splitGreedyAux, List.intercalate, List.intersperse]
    | cons c r => simp at h1
  | succ f ih =>
    intro t h1
    cases t with
    | nil => simp [replaceAllAux, splitGreedyAux, List.intercalate, List.intersperse]
    | cons c r =>
      have hlen : r.length ≤ f := by simpa using h1
      simp only [replaceAllAux, splitGreedyAux]
      by_cases hp : pat ≠ [] ∧ pat.isPrefixOf (c :: r)
      · rw [if_pos hp, if_pos hp]
        have hpat : 1 ≤ pat.length := List.length_pos.mpr hp.1
        have hdl : ((c :: r).drop pat.length).length ≤ f := by
          simp only [List.length_drop, List.length_cons]
          omega
        rw [ih _ hdl,
          intercalate_nil_head rep _ (splitGreedyAux_ne_nil pat f _)]
      · rw [if_neg hp, if_neg hp, ih r hlen,
          intercalate_modifyHead rep c _ (splitGreedyAux_ne_nil pat f r)]

theorem replaceAll_eq_intercalate (pat rep t : List Char) :
    replaceAll pat rep t = List.intercalate rep (splitGreedy pat t) :=
  replaceAllAux_eq_intercalate pat rep t.length t le_rfl

theorem intercalate_splitGreedyAux_self (pat : List Char) (hp : pat ≠ [])
    (fuel : Nat) :
    ∀ t : List Char, t.length ≤ fuel →
      List.intercalate pat (splitGreedyAux pat fuel t) = t := by
  induction fuel with
  | zero =>
    intro t h1
    cases t with
    | nil => simp [splitGreedyAux, List.intercalate, List.intersperse]
    | cons c r => simp at h1
  | succ f ih =>
    intro t h1
    cases t with
    | nil => simp [splitGreedyAux, List.intercalate, List.intersperse]
    | cons c r =>
      have hlen : r.length ≤ f := by simpa using h1
      simp only [splitGreedyAux]
      by_cases hcond : pat ≠ [] ∧ pat.isPrefixOf (c :: r)
      · rw [if_pos hcond]
        have hpat : 1 ≤ pat.length := List.length_pos.mpr hp
        have hdl : ((c :: r).drop pat.length).length ≤ f := by
          simp only [List.length_drop, List.length_cons]
          omega
        rw [intercalate_nil_head pat _ (splitGreedyAux_ne_nil pat f _), ih _ hdl]
        exact List.prefix_iff_eq_append.mp (List.isPrefixOf_iff_prefix.mp hcond.2)
      · rw [if_neg hcond,
          intercalate_modifyHead pat c _ (splitGreedyAux_ne_nil pat f r), ih r hlen]

theorem intercalate_splitGreedy_self (pat t : List Char) (hp : pat ≠ []) :
    List.intercalate pat (splitGreedy pat t) = t :=
  intercalate_splitGreedyAux_self pat hp t.length t le_rfl

theorem replaceAll_of_absent_pat (pat rep t : List Char) (h : ¬ pat <:+: t) :
    replaceAll pat rep t = t := by
  induction t with
  | nil => rfl
  | cons c rest ih =>
    rw [replaceAll_cons]
    have hp : ¬ (pat ≠ [] ∧ pat.isPrefixOf (c :: rest)) := by
      rintro ⟨-, hpre⟩
      exact h (List.isPrefixOf_iff_prefix.mp hpre).isInfix
    rw [if_neg hp]
    exact congrArg (c :: ·) (ih fun hinf => h (List.infix_cons hinf))

/-! ### Shape of the escaper output -/

theorem escape_json_parse_eq (json : List Char) (opts : Options) :
    escape_json_parse json opts =
      "JSON.parse('".data ++ escBody '\\' isEscChar json ++ ['\''] ++
        (if opts.freeze then FREEZE_REVIVER else []) ++ [')'] := by
  unfold escape_json_parse
  rw [escLoop_eq_escBody]

theorem isEscChar_eq_false (c : Char) (h1 : c ≠ '\\') (h2 : c ≠ '\'') :
    isEscChar c = false := by
  simp [isEscChar, h1, h2]

/-! ### UTF-8: byte-level and character-level scans agree -/

theorem utf8Encode_append (xs ys : List Char) :
    utf8Encode (xs ++ ys) = utf8Encode xs ++ utf8Encode ys := by
  induction xs with
  | nil => rfl
  | cons c cs ih => simp [utf8Encode, ih, List.append_assoc]

theorem utf8EncodeChar_of_esc (c : Char) (h : isEscChar c = true) :
    utf8EncodeChar c = [c.toNat] ∧ isEscByte c.toNat = true := by
  have hc : c = '\\' ∨ c = '\'' := by
    simpa [isEscChar] using h
  rcases hc with hc | hc <;> subst hc <;> exact ⟨by decide, by decide⟩

theorem char_eq_of_toNat_eq (c d : Char) (h : c.toNat = d.toNat) : c = d := by
  have h1 := (Char.ofNat_toNat c).symm
  rw [h, Char.ofNat_toNat] at h1
  exact h1

theorem isEscByte_eq_false (b : Nat) (h1 : b ≠ 92) (h2 : b ≠ 39) :
    isEscByte b = false := by
  simp only [isEscByte, Bool.or_eq_false_iff, beq_eq_false_iff_ne, ne_eq]
  exact ⟨h1, h2⟩

theorem utf8EncodeChar_of_not_esc (c : Char) (h : isEscChar c = false) :
    ∀ b ∈ utf8EncodeChar c, isEscByte b = false := by
  intro b hb
  have hc1 : c ≠ '\\' := by
    rintro rfl
    simp [isEscChar] at h
  have hc2 : c ≠ '\'' := by
    rintro rfl
    simp [isEscChar] at h
  have hn1 : c.toNat ≠ 92 :=
    fun hn => hc1 (char_eq_of_toNat_eq c '\\' (by rw [hn]; decide))
  have hn2 : c.toNat ≠ 39 :=
    fun hn => hc2 (char_eq_of_toNat_eq c '\'' (by rw [hn]; decide))
  refine isEscByte_eq_false b ?_ ?_ <;>
  · intro hb92
    subst hb92
    unfold utf8EncodeChar at hb
    by_cases h1 : c.toNat < 0x80
    · simp only [h1, if_true, List.mem_singleton] at hb
      omega
    · by_cases h2 : c.toNat < 0x800
      · simp only [h1, h2, if_false, if_true, List.mem_cons,
          List.not_mem_nil, or_false] at hb
        have hm : c.toNat % 64 < 64 := Nat.mod_lt _ (by omega)
        rcases hb with hb | hb <;> omega
      · by_cases h3 : c.toNat < 0x10000
        · simp only [h1, h2, h3, if_false, if_true, List.mem_cons,
            List.not_mem_nil, or_false] at hb
          have hm : c.toNat % 64 < 64 := Nat.mod_lt _ (by omega)
          have hm2 : c.toNat / 64 % 64 < 64 := Nat.mod_lt _ (by omega)
          rcases hb with hb | hb | hb <;> omega
        · simp only [h1, h2, h3, if_false, List.mem_cons,
            List.not_mem_nil, or_false] at hb
          have hm : c.toNat % 64 < 64 := Nat.mod_lt _ (by omega)
          have hm2 : c.toNat / 64 % 64 < 64 := Nat.mod_lt _ (by omega)
          have hm3 : c.toNat / 4096 % 64 < 64 := Nat.mod_lt _ (by omega)
          rcases hb with hb | hb | hb | hb <;> omega

theorem escBody_append_of_nomatch (e : α) (p : α → Bool) (xs ys : List α)
    (h : ∀ x ∈ xs, p x = false) :
    escBody e p (xs ++ ys) = xs ++ escBody e p ys := by
  induction xs with
  | nil => rfl
  | cons x xs ih =>
    simp only [List.cons_append, escBody, h x (by simp), Bool.false_eq_true,
      if_false]
    exact congrArg (x :: ·) (ih fun y hy => h y (by simp [hy]))

theorem escBody_utf8 (s : List Char) :
    escBody 0x5C isEscByte (utf8Encode s) =
      utf8Encode (escBody '\\' isEscChar s) := by
  induction s with
  | nil => rfl
  | cons c cs ih =>
    show escBody 0x5C isEscByte (utf8EncodeChar c ++ utf8Encode cs) = _
    by_cases h : isEscChar c
    · obtain ⟨henc, hbyte⟩ := utf8EncodeChar_of_esc c h
      rw [show utf8EncodeChar c ++ utf8Encode cs = c.toNat :: utf8Encode cs
        from by rw [henc]; rfl]
      rw [show escBody 0x5C isEscByte (c.toNat :: utf8Encode cs) =
          0x5C :: c.toNat :: escBody 0x5C isEscByte (utf8Encode cs)
        from by simp [escBody, hbyte]]
      rw [ih]
      rw [show escBody '\\' isEscChar (c :: cs) =
        '\\' :: c :: escBody '\\' isEscChar cs from by simp [escBody, h]]
      show _ = utf8EncodeChar '\\' ++
        (utf8EncodeChar c ++ utf8Encode (escBody '\\' isEscChar cs))
      rw [henc]
      rfl
    · have hf : isEscChar c = false := by
        cases hpc : isEscChar c
        · rfl
        · exact absurd hpc h
      rw [escBody_append_of_nomatch _ _ _ _
        (utf8EncodeChar_of_not_esc c hf), ih]
      rw [show escBody '\\' isEscChar (c :: cs) =
        c :: escBody '\\' isEscChar cs from by simp [escBody, hf]]
      rfl

theorem matchIndicesFrom_append (p : α → Bool) (xs ys : List α) (k : Nat) :
    matchIndicesFrom p k (xs ++ ys) =
      matchIndicesFrom p k xs ++ matchIndicesFrom p (k + xs.length) ys := by
  induction xs generalizing k with
  | nil => simp [matchIndicesFrom]
  | cons x xs ih =>
    simp only [List.cons_append, matchIndicesFrom, List.length_cons,
      List.append_eq]
    by_cases h : p x
    · rw [if_pos h, if_pos h, ih (k + 1),
        show k + 1 + xs.length = k + (xs.length + 1) from by omega]
      simp
    · rw [if_neg h, if_neg h, ih (k + 1),
        show k + 1 + xs.length = k + (xs.length + 1) from by omega]

theorem matchIndicesFrom_bounds (p : α → Bool) :
    ∀ (xs : List α) (k : Nat), ∀ i ∈ matchIndicesFrom p k xs,
      k ≤ i ∧ i < k + xs.length := by
  intro xs
  induction xs with
  | nil => intro k i hi; simp [matchIndicesFrom] at hi
  | cons x xs ih =>
    intro k i hi
    by_cases h : p x
    · simp only [matchIndicesFrom, h, if_true, List.mem_cons] at hi
      rcases hi with rfl | hi
      · simp
      · have := ih (k + 1) i hi
        constructor <;> [omega; (simp only [List.length_cons]; omega)]
    · simp only [matchIndicesFrom, h, Bool.false_eq_true, if_false] at hi
      have := ih (k + 1) i hi
      constructor <;> [omega; (simp only [List.length_cons]; omega)]

theorem matchIndicesFrom_sorted (p : α → Bool) :
    ∀ (xs : List α) (k : Nat),
      List.Pairwise (· < ·) (matchIndicesFrom p k xs) := by
  intro xs
  induction xs with
  | nil => intro k; simp [matchIndicesFrom]
  | cons x xs ih =>
    intro k
    by_cases h : p x
    · simp only [matchIndicesFrom, h, if_true]
      refine List.pairwise_cons.mpr ⟨fun j hj => ?_, ih (k + 1)⟩
      have := (matchIndicesFrom_bounds p xs (k + 1) j hj).1
      omega
    · simp only [matchIndicesFrom, h, Bool.false_eq_true, if_false]
      exact ih (k + 1)

theorem matchIndices_utf8_boundary (s : List Char) :
    ∀ (k : Nat), ∀ i ∈ matchIndicesFrom isEscByte k (utf8Encode s),
      ∃ pre suf, s = pre ++ suf ∧ suf ≠ [] ∧
        i = k + (utf8Encode pre).length := by
  induction s with
  | nil => intro k i hi; simp [utf8Encode, matchIndicesFrom] at hi
  | cons c cs ih =>
    intro k i hi
    rw [show utf8Encode (c :: cs) = utf8EncodeChar c ++ utf8Encode cs from rfl,
      matchIndicesFrom_append] at hi
    rcases List.mem_append.mp hi with hi | hi
    · by_cases h : isEscChar c
      · obtain ⟨henc, hbyte⟩ := utf8EncodeChar_of_esc c h
        rw [henc] at hi
        simp only [matchIndicesFrom, hbyte, if_true, List.mem_singleton] at hi
        subst hi
        exact ⟨[], c :: cs, rfl, by simp, by simp [utf8Encode]⟩
      · have hnone : matchIndicesFrom isEscByte k (utf8EncodeChar c) = [] :=
          (matchIndicesFrom_eq_nil_iff _ _ _).mpr
            (utf8EncodeChar_of_not_esc c (by
              cases hpc : isEscChar c
              · rfl
              · exact absurd hpc h))
        rw [hnone] at hi
        simp at hi
    · obtain ⟨pre, suf, hsplit, hne, hlen⟩ :=
        ih (k + (utf8EncodeChar c).length) i hi
      refine ⟨c :: pre, suf, by simp [hsplit], hne, ?_⟩
      rw [hlen]
      show _ = k + (utf8EncodeChar c ++ utf8Encode pre).length
      simp only [List.length_append]
      omega

theorem escStep_foldl_snd (e : α) (json : List α) :
    ∀ (L : List Nat) (st : List α × Nat),
      (L.foldl (escStep e json) st).2 = L.getLastD st.2 := by
  intro L
  induction L with
  | nil => intro st; rfl
  | cons i L ih =>
    intro st
    rw [List.foldl_cons, ih, List.getLastD_cons]
    rfl

theorem getLastD_mem_cons (xs : List α) :
    ∀ (x d : α), (x :: xs).getLastD d ∈ x :: xs := by
  induction xs with
  | nil => intro x d; simp [List.getLastD_cons]
  | cons y ys ih =>
    intro x d
    rw [List.getLastD_cons]
    exact List.mem_cons_of_mem x (ih y x)

/-! ### A JavaScript engine recovers the exact JSON text from the literal -/

theorem bool_eq_false_of_ne (b : Bool) (h : ¬ b = true) : b = false := by
  cases b
  · rfl
  · exact absurd rfl h

theorem jsUnescape_esc (c : Char) (h : isEscChar c = true) : jsUnescape c = c := by
  have hc : c = '\\' ∨ c = '\'' := by
    simpa [isEscChar] using h
  rcases hc with rfl | rfl <;> decide

theorem jsLexSQ_escBody (s : List Char) :
    ∀ rest : List Char, (∀ c ∈ s, c ≠ '\n' ∧ c ≠ '\r') →
      jsLexSQ (escBody '\\' isEscChar s ++ '\'' :: rest) = some (s, rest) := by
  induction s with
  | nil =>
    intro rest _
    show jsLexSQ ('\'' :: rest) = some ([], rest)
    rw [jsLexSQ.eq_def]
    simp
  | cons c cs ih =>
    intro rest hs
    have hcs : ∀ x ∈ cs, x ≠ '\n' ∧ x ≠ '\r' := fun x hx => hs x (by simp [hx])
    by_cases h : isEscChar c
    · rw [show escBody '\\' isEscChar (c :: cs) =
        '\\' :: c :: escBody '\\' isEscChar cs from by simp [escBody, h],
        List.cons_append, List.cons_append]
      rw [show jsLexSQ ('\\' :: c :: (escBody '\\' isEscChar cs ++ '\'' :: rest)) =
          (jsLexSQ (escBody '\\' isEscChar cs ++ '\'' :: rest)).map
            (fun p => (jsUnescape c :: p.1, p.2)) from by
        rw [jsLexSQ.eq_def]
        simp]
      rw [ih rest hcs]
      simp [jsUnescape_esc c h]
    · have hf : isEscChar c = false := bool_eq_false_of_ne _ h
      have hq : c ≠ '\'' := by
        rintro rfl
        simp [isEscChar] at hf
      have hb : c ≠ '\\' := by
        rintro rfl
        simp [isEscChar] at hf
      rw [show escBody '\\' isEscChar (c :: cs) =
        c :: escBody '\\' isEscChar cs from by simp [escBody, hf],
        List.cons_append]
      rw [show jsLexSQ (c :: (escBody '\\' isEscChar cs ++ '\'' :: rest)) =
          (jsLexSQ (escBody '\\' isEscChar cs ++ '\'' :: rest)).map
            (fun p => (c :: p.1, p.2)) from by
        rw [jsLexSQ.eq_def]
        simp [hq, hb, (hs c (by simp)).1, (hs c (by simp)).2]]
      rw [ih rest hcs]
      rfl

/-! ### Renderer bridge lemmas -/

theorem genStep_eq_computedText (opts : Options) (f : TemplateField σ) (s : σ) :
    genStep f s =
      ((computedText opts f s).1.map fun _ => (), (computedText opts f s).2) := by
  cases f with
  | mk name val =>
    cases val with
    | raw g => rfl
    | escaped g =>
      cases hg : (g s).1 with
      | error e => simp [genStep, computedText, hg, Except.map]
      | ok j => simp [genStep, computedText, hg, Except.map]

theorem computedText_error_of_genStep (opts : Options) (f : TemplateField σ)
    (s : σ) (e : SerError) (s'' : σ) (h : genStep f s = (.error e, s'')) :
    computedText opts f s = (.error e, s'') := by
  rw [genStep_eq_computedText opts f s] at h
  simp only [Prod.mk.injEq] at h
  cases hct : (computedText opts f s).1 with
  | ok d =>
    rw [hct] at h
    simp [Except.map] at h
  | error e' =>
    rw [hct] at h
    simp only [Except.map, Except.error.injEq] at h
    have h1 : computedText opts f s =
        ((computedText opts f s).1, (computedText opts f s).2) := rfl
    rw [h1, hct, h.1, h.2]

theorem computedText_ok_of_genStep (opts : Options) (f : TemplateField σ)
    (s : σ) (s₁ : σ) (h : genStep f s = (.ok (), s₁)) :
    ∃ d, computedText opts f s = (.ok d, s₁) := by
  rw [genStep_eq_computedText opts f s] at h
  simp only [Prod.mk.injEq] at h
  cases hct : (computedText opts f s).1 with
  | error e' =>
    rw [hct] at h
    simp [Except.map] at h
  | ok d =>
    refine ⟨d, ?_⟩
    have h1 : computedText opts f s =
        ((computedText opts f s).1, (computedText opts f s).2) := rfl
    rw [h1, hct, h.2]

theorem renderFields_snd (opts : Options) (fs : List (TemplateField σ)) :
    ∀ (doc : List Char) (s : σ), (renderFields opts fs doc s).2 = genStates fs s := by
  induction fs with
  | nil => intro doc s; rfl
  | cons f fs ih =>
    intro doc s
    cases hct : computedText opts f s with
    | mk r s' =>
      cases r with
      | error e =>
        have hg : genStep f s = (.error e, s') := by
          rw [genStep_eq_computedText opts f s, hct]
          rfl
        simp only [renderFields, hct, genStates, hg]
      | ok d =>
        have hg : genStep f s = (.ok (), s') := by
          rw [genStep_eq_computedText opts f s, hct]
          rfl
        simp only [renderFields, hct, genStates, hg]
        exact ih _ s'

theorem renderFields_append_error (opts : Options) :
    ∀ (fs₁ : List (TemplateField σ)) (f : TemplateField σ)
      (fs₂ : List (TemplateField σ)) (doc : List Char) (s : σ)
      (e : SerError) (s'' : σ),
      allSucceedB fs₁ s = true →
      genStep f (genStates fs₁ s) = (.error e, s'') →
      renderFields opts (fs₁ ++ f :: fs₂) doc s = (.error e, s'') := by
  intro fs₁
  induction fs₁ with
  | nil =>
    intro f fs₂ doc s e s'' _ hgen
    simp only [genStates] at hgen
    have hct := computedText_error_of_genStep opts f s e s'' hgen
    simp only [List.nil_append, renderFields, hct]
  | cons g fs₁ ih =>
    intro f fs₂ doc s e s'' hall hgen
    cases hg : genStep g s with
    | mk r s₁ =>
      cases r with
      | error e' =>
        simp only [allSucceedB, hg] at hall
        exact absurd hall Bool.false_ne_true
      | ok u =>
        cases u
        simp only [allSucceedB, hg] at hall
        simp only [genStates, hg] at hgen
        obtain ⟨d, hct⟩ := computedText_ok_of_genStep opts g s s₁ hg
        simp only [List.cons_append, renderFields, hct]
        exact ih f fs₂ _ s₁ e s'' hall hgen

theorem renderFields_id_of_absent (opts : Options) :
    ∀ (fs : List (TemplateField σ)) (doc : List Char) (s : σ),
      allSucceedB fs s = true →
      (∀ f ∈ fs, ¬ f.placeholder <:+: doc) →
      renderFields opts fs doc s = (.ok doc, genStates fs s) := by
  intro fs
  induction fs with
  | nil => intro doc s _ _; rfl
  | cons f fs ih =>
    intro doc s hall habs
    cases hg : genStep f s with
    | mk r s₁ =>
      cases r with
      | error e' =>
        simp only [allSucceedB, hg] at hall
        exact absurd hall Bool.false_ne_true
      | ok u =>
        cases u
        simp only [allSucceedB, hg] at hall
        obtain ⟨d, hct⟩ := computedText_ok_of_genStep opts f s s₁ hg
        simp only [renderFields, hct]
        rw [replaceAll_of_absent_pat _ _ _ (habs f (by simp))]
        rw [ih doc s₁ hall fun g hgm => habs g (by simp [hgm])]
        simp only [genStates, hg]

/-! ### Order independence over token documents -/

theorem flattenWith_congr (f g : Fin n → List Char) (toks : List (Tok n))
    (h : ∀ i, f i = g i) : flattenWith f toks = flattenWith g toks := by
  induction toks with
  | nil => rfl
  | cons t ts ih =>
    cases t with
    | lit s => simp only [flattenWith, ih]
    | ph i => simp only [flattenWith, h i, ih]

theorem computedText_pureTF (opts : Options) (name : List Char) (r : Bool)
    (t : List Char) :
    computedText opts (pureTF name r t) () = (.ok (computedOf opts r t), ()) := by
  cases r <;> rfl

theorem placeholder_pureTF (name : List Char) (r : Bool) (t : List Char) :
    (pureTF name r t).placeholder = placeholderOf r name := by
  cases r <;> rfl

theorem renderFields_flatten_aux (opts : Options) (P D : Fin n → List Char)
    (toks : List (Tok n)) (mk : Fin n → TemplateField Unit)
    (hmk : ∀ i, (mk i).placeholder = P i ∧
      computedText opts (mk i) () = (.ok (D i), ()))
    (hfs : FaithfulSubst P D toks) :
    ∀ (ord : List (Fin n)) (sel : Fin n → Bool), ord.Nodup →
      (∀ i ∈ ord, sel i = false) →
      renderFields opts (ord.map mk) (flattenWith (mixSel P D sel) toks) () =
        (.ok (flattenWith (mixSel P D fun j => if j ∈ ord then true else sel j)
          toks), ()) := by
  intro ord
  induction ord with
  | nil =>
    intro sel _ _
    simp only [List.map_nil, renderFields]
    refine congrArg (fun d => (Except.ok d, ()))
      (flattenWith_congr _ _ _ fun i => ?_)
    simp [mixSel]
  | cons i ord ih =>
    intro sel hnd hsel
    simp only [List.map_cons, renderFields, (hmk i).2]
    rw [(hmk i).1, hfs i sel (hsel i (by simp))]
    have hnd' : ord.Nodup := (List.nodup_cons.mp hnd).2
    have hni : i ∉ ord := (List.nodup_cons.mp hnd).1
    have hsel' : ∀ j ∈ ord, (fun j => if j = i then true else sel j) j = false := by
      intro j hj
      have hji : j ≠ i := fun hji => hni (hji ▸ hj)
      simp only [hji, if_false]
      exact hsel j (by simp [hj])
    rw [ih (fun j => if j = i then true else sel j) hnd' hsel']
    refine congrArg (fun d => (Except.ok d, ()))
      (flattenWith_congr _ _ _ fun j => ?_)
    simp only [mixSel, List.mem_cons]
    by_cases hj : j ∈ ord
    · simp [hj]
    · by_cases hji : j = i
      · simp [hji, hj]
      · simp [hj, hji]

/-! ### Small wrappers and helpers for the claim theorems -/

theorem matchIndicesP_sorted (p : α → Bool) (xs : List α) :
    List.Pairwise (· < ·) (matchIndicesP p xs) :=
  matchIndicesFrom_sorted p xs 0

theorem matchIndicesP_lt_length (p : α → Bool) (xs : List α) :
    ∀ i ∈ matchIndicesP p xs, i < xs.length := by
  intro i hi
  have := (matchIndicesFrom_bounds p xs 0 i hi).2
  omega

theorem computedText_counterTF (opts : Options) (name : List Char) (r : Bool)
    (t : List Char) (n : Nat) :
    computedText opts (counterTF name r t) n =
      (.ok (computedOf opts r t), n + 1) := by
  cases r <;> rfl

theorem placeholder_counterTF (name : List Char) (r : Bool) (t : List Char) :
    (counterTF name r t).placeholder = placeholderOf r name := by
  cases r <;> rfl

theorem placeholderOf_ne_nil (r : Bool) (name : List Char) :
    placeholderOf r name ≠ [] := by
  cases r <;> simp [placeholderOf]

/-! ### The claims -/

/-- C1. For every serialized input text, `escape` with freeze disabled
returns exactly `JSON.parse('` ++ body ++ `')`, where body is the input
with one backslash inserted before each backslash and each single quote
and every other character unchanged (`escBody`); in particular, for
input containing neither character the output is
`JSON.parse('` ++ input ++ `')` with no extra characters. -/
theorem escape_body_shape_C1 (json : List Char) (b : Nat) :
    escape_json_parse json ⟨false, b⟩ =
      "JSON.parse('".data ++ escBody '\\' isEscChar json ++ "')".data
    ∧ ((∀ c ∈ json, c ≠ '\\' ∧ c ≠ '\'') →
      escape_json_parse json ⟨false, b⟩ =
        "JSON.parse('".data ++ json ++ "')".data) := by
  have h1 : escape_json_parse json ⟨false, b⟩ =
      "JSON.parse('".data ++ escBody '\\' isEscChar json ++ "')".data := by
    rw [escape_json_parse_eq]
    show _ = _ ++ _ ++ ['\'', ')']
    simp [List.append_assoc]
  refine ⟨h1, fun h => ?_⟩
  rw [h1, escBody_eq_self '\\' isEscChar json
    fun c hc => isEscChar_eq_false c (h c hc).1 (h c hc).2]

theorem escape_body_shape_C1_witness :
    escape_json_parse "ab".data ⟨false, 0⟩ = "JSON.parse('ab')".data :=
  (escape_body_shape_C1 "ab".data 0).2 (by decide)

/-- C2. Round trip: for any value `v` of any type with a serializer and a
parse oracle that correctly inverts it (the spec's assumed-correct
external encoder and the runtime's native `JSON.parse`), a JavaScript
engine evaluating the text produced by `escape(serialize v, default
options)` — reading the single-quoted literal and handing the denoted
text to the parse function — recovers exactly `v`.  The hypothesis `hnl`
records that the encoder emits no raw `\n`/`\r` (true of compact JSON
encoders; ES2019 engines accept every other character unescaped). -/
theorem escape_js_roundtrip_C2 {V : Type} (ser : V → List Char)
    (par : List Char → Option V) (hpar : ∀ v, par (ser v) = some v) (v : V)
    (hnl : ∀ c ∈ ser v, c ≠ '\n' ∧ c ≠ '\r') :
    (jsEvalParseArg (escape_json_parse (ser v) Options.default)).bind par =
      some v := by
  rw [show escape_json_parse (ser v) Options.default =
      "JSON.parse('".data ++
        (escBody '\\' isEscChar (ser v) ++ '\'' :: [')'])
    from by
      rw [escape_json_parse_eq]
      simp [Options.default, List.append_assoc]]
  unfold jsEvalParseArg
  rw [if_pos (List.isPrefixOf_iff_prefix.mpr (List.prefix_append _ _))]
  rw [show (12 : Nat) = "JSON.parse('".data.length from rfl, List.drop_left]
  rw [jsLexSQ_escBody (ser v) [')'] hnl]
  simp [hpar v]

theorem escape_js_roundtrip_C2_witness :
    (jsEvalParseArg (escape_json_parse (serBool true)
      Options.default)).bind parBool = some true :=
  escape_js_roundtrip_C2 serBool parBool (by decide) true (by decide)

/-- C3. Every field's replacement text is computed exactly once per
render: the state effect of a render equals running each field's value
generator once in order (`genStates`), independently of the document and
of how often each placeholder occurs; and a render of a counter field
increments the counter by exactly one while every greedy occurrence of
the placeholder is replaced with the single computed text
(`List.intercalate` of the identical replacement over the occurrence
segments, which reassemble to the document). -/
theorem render_exactly_once_C3 (opts : Options) :
    (∀ (σ : Type) (fs : List (TemplateField σ)) (doc : List Char) (s : σ),
      (renderFields opts fs doc s).2 = genStates fs s)
    ∧ (∀ (name : List Char) (r : Bool) (t doc : List Char) (n : Nat),
      renderFields opts [counterTF name r t] doc n =
        (.ok (List.intercalate (computedOf opts r t)
          (splitGreedy (placeholderOf r name) doc)), n + 1))
    ∧ ∀ (name : List Char) (r : Bool) (doc : List Char),
      List.intercalate (placeholderOf r name)
        (splitGreedy (placeholderOf r name) doc) = doc := by
  refine ⟨fun σ fs doc s => renderFields_snd opts fs doc s,
    fun name r t doc n => ?_,
    fun name r doc =>
      intercalate_splitGreedy_self _ doc (placeholderOf_ne_nil r name)⟩
  simp only [renderFields, computedText_counterTF, placeholder_counterTF,
    replaceAll_eq_intercalate]

/-- C4 counterexample. Render is NOT independent of field order for every
document and every pair of distinct field names: a raw field `a` whose
display text is field `b`'s placeholder yields `B B` when `a` is
substituted first and `__RAW_b__ B` when `b` is substituted first, so the
substituted text of one field can re-trigger another field's
placeholder. -/
theorem render_order_C4_counterexample :
    getOk (renderFields Options.default [cexFieldA, cexFieldB] cexDoc ()).1 ≠
      getOk (renderFields Options.default [cexFieldB, cexFieldA] cexDoc ()).1 := by
  decide

/-- C4 (amended). Order independence holds when the substitution steps
are faithful on the document (`FaithfulSubst`): each placeholder's
occurrences are exactly the placeholder tokens of the document, they do
not overlap, and no substituted text contains or helps form any field's
placeholder.  Under that condition (and pure value generators, which the
claim presumes), any two duplicate-free complete orders of the fields
render the same output — both equal the token document with every
placeholder replaced. -/
theorem render_order_C4_amended (opts : Options) {n : Nat}
    (name : Fin n → List Char) (raw : Fin n → Bool) (text : Fin n → List Char)
    (toks : List (Tok n)) (ord₁ ord₂ : List (Fin n))
    (hfs : FaithfulSubst (fun i => placeholderOf (raw i) (name i))
      (fun i => computedOf opts (raw i) (text i)) toks)
    (hnd₁ : ord₁.Nodup) (hnd₂ : ord₂.Nodup)
    (hc₁ : ∀ i, i ∈ ord₁) (hc₂ : ∀ i, i ∈ ord₂) :
    renderFields opts (ord₁.map fun i => pureTF (name i) (raw i) (text i))
        (flattenWith (fun i => placeholderOf (raw i) (name i)) toks) () =
      renderFields opts (ord₂.map fun i => pureTF (name i) (raw i) (text i))
        (flattenWith (fun i => placeholderOf (raw i) (name i)) toks) () := by
  have key : ∀ ord : List (Fin n), ord.Nodup → (∀ i, i ∈ ord) →
      renderFields opts (ord.map fun i => pureTF (name i) (raw i) (text i))
        (flattenWith (fun i => placeholderOf (raw i) (name i)) toks) () =
      (.ok (flattenWith (fun i => computedOf opts (raw i) (text i)) toks),
        ()) := by
    intro ord hnd hc
    have hstart : flattenWith (fun i => placeholderOf (raw i) (name i)) toks =
        flattenWith (mixSel (fun i => placeholderOf (raw i) (name i))
          (fun i => computedOf opts (raw i) (text i)) fun _ => false) toks :=
      flattenWith_congr _ _ _ fun i => rfl
    rw [hstart,
      renderFields_flatten_aux opts _ _ toks _
        (fun i => ⟨placeholder_pureTF _ _ _, computedText_pureTF _ _ _ _⟩) hfs
        ord (fun _ => false) hnd (fun i _ => rfl)]
    refine congrArg (fun d => (Except.ok d, ()))
      (flattenWith_congr _ _ _ fun j => ?_)
    simp [mixSel, hc j]
  rw [key ord₁ hnd₁ hc₁, key ord₂ hnd₂ hc₂]

theorem render_order_C4_amended_witness :
    renderFields Options.default
        (([0, 1] : List (Fin 2)).map fun i =>
          pureTF (if i = 0 then "x".data else "xy".data) true
            (if i = 0 then "1".data else "2".data))
        (flattenWith (fun i : Fin 2 =>
          placeholderOf true (if i = 0 then "x".data else "xy".data))
          [Tok.ph 0, Tok.ph 1]) () =
      renderFields Options.default
        (([1, 0] : List (Fin 2)).map fun i =>
          pureTF (if i = 0 then "x".data else "xy".data) true
            (if i = 0 then "1".data else "2".data))
        (flattenWith (fun i : Fin 2 =>
          placeholderOf true (if i = 0 then "x".data else "xy".data))
          [Tok.ph 0, Tok.ph 1]) () := by
  exact render_order_C4_amended Options.default
    (fun i : Fin 2 => if i = 0 then "x".data else "xy".data)
    (fun _ : Fin 2 => true)
    (fun i : Fin 2 => if i = 0 then "1".data else "2".data)
    [Tok.ph 0, Tok.ph 1] [0, 1] [1, 0]
    (by decide) (by decide) (by decide) (by decide) (by decide)

/-- C5. An `Escaped` field's rendering serializes the value (failing the
whole render with the SerializationError when serialization fails) and
otherwise substitutes exactly `escape_json_parse` of the serialized text
with the caller's options — the same function as a standalone escape
call, so `freeze` and `buf` govern the field's literal identically. -/
theorem render_escaped_field_C5 (opts : Options) {σ : Type}
    (name : List Char) (g : σ → Except SerError (List Char) × σ)
    (doc : List Char) (s : σ) :
    (∀ j s', g s = (.ok j, s') →
      renderFields opts [(⟨name, .escaped g⟩ : TemplateField σ)] doc s =
        (.ok (replaceAll (placeholderOf false name)
          (escape_json_parse j opts) doc), s'))
    ∧ ∀ e s', g s = (.error e, s') →
      renderFields opts [(⟨name, .escaped g⟩ : TemplateField σ)] doc s =
        (.error e, s') := by
  constructor
  · intro j s' hg
    have hct : computedText opts (⟨name, .escaped g⟩ : TemplateField σ) s =
        (.ok (escape_json_parse j opts), s') := by
      simp [computedText, hg, Except.map]
    simp only [renderFields, hct]
    rfl
  · intro e s' hg
    have hct : computedText opts (⟨name, .escaped g⟩ : TemplateField σ) s =
        (.error e, s') := by
      simp [computedText, hg, Except.map]
    simp only [renderFields, hct]

theorem render_escaped_field_C5_witness :
    renderFields Options.default
        [(⟨"k".data, .escaped fun s : Unit => (.ok "1".data, s)⟩ :
          TemplateField Unit)] "__TEMPLATE_k__".data () =
      (.ok (replaceAll (placeholderOf false "k".data)
        (escape_json_parse "1".data Options.default)
        "__TEMPLATE_k__".data), ()) :=
  (render_escaped_field_C5 Options.default "k".data
    (fun s : Unit => (.ok "1".data, s)) "__TEMPLATE_k__".data ()).1
    "1".data () rfl

/-- C6. A render whose fields all serialize successfully returns the
substituted document — in particular, placeholders absent from the
document are not an error and the document comes back unchanged — and
the only failure is the first SerializationError, which short-circuits
all remaining fields (their generators never run) and returns no partial
document. -/
theorem render_result_C6 (opts : Options) (σ : Type) :
    (∀ (fs : List (TemplateField σ)) (doc : List Char) (s : σ),
      allSucceedB fs s = true →
      (∀ f ∈ fs, ¬ f.placeholder <:+: doc) →
      renderFields opts fs doc s = (.ok doc, genStates fs s))
    ∧ ∀ (fs₁ : List (TemplateField σ)) (f : TemplateField σ)
        (fs₂ : List (TemplateField σ)) (doc : List Char) (s : σ)
        (e : SerError) (s'' : σ),
      allSucceedB fs₁ s = true →
      genStep f (genStates fs₁ s) = (.error e, s'') →
      renderFields opts (fs₁ ++ f :: fs₂) doc s = (.error e, s'') :=
  ⟨fun fs doc s => renderFields_id_of_absent opts fs doc s,
    fun fs₁ f fs₂ doc s e s'' =>
      renderFields_append_error opts fs₁ f fs₂ doc s e s''⟩

theorem render_result_C6_witness :
    renderFields Options.default [counterTF "x".data true "T".data]
      "doc".data 0 = (.ok "doc".data, 1) :=
  ((render_result_C6 Options.default Nat).1
    [counterTF "x".data true "T".data] "doc".data 0
    (by decide) (by decide)).trans rfl

/-- C7. With `freeze = true` the output carries the `FREEZE_REVIVER`
suffix immediately before the closing parenthesis and is otherwise
byte-identical to the `freeze = false` output; with `freeze = false` no
reviver is emitted between the closing quote and the parenthesis. -/
theorem escape_freeze_C7 (json : List Char) (b : Nat) :
    escape_json_parse json ⟨true, b⟩ =
      ("JSON.parse('".data ++ escBody '\\' isEscChar json ++ ['\'']) ++
        FREEZE_REVIVER ++ [')']
    ∧ escape_json_parse json ⟨false, b⟩ =
      ("JSON.parse('".data ++ escBody '\\' isEscChar json ++ ['\'']) ++ [')']
    ∧ escape_json_parse json ⟨true, b⟩ =
      (escape_json_parse json ⟨false, b⟩).dropLast ++ FREEZE_REVIVER ++ [')'] := by
  have h1 : escape_json_parse json ⟨true, b⟩ =
      ("JSON.parse('".data ++ escBody '\\' isEscChar json ++ ['\'']) ++
        FREEZE_REVIVER ++ [')'] := by
    rw [escape_json_parse_eq]
    simp [List.append_assoc]
  have h2 : escape_json_parse json ⟨false, b⟩ =
      ("JSON.parse('".data ++ escBody '\\' isEscChar json ++ ['\'']) ++ [')'] := by
    rw [escape_json_parse_eq]
    simp [List.append_assoc]
  refine ⟨h1, h2, ?_⟩
  rw [h1, h2, List.dropLast_concat]

/-- C8. The extra-buffer hint has no effect on output content: outputs
for two option values differing only in `buf` are identical strings (the
requested capacity only pre-sizes the buffer), while the estimated
capacity itself does shift by exactly the hint. -/
theorem escape_buf_hint_C8 (json : List Char) (fr : Bool) (b₁ b₂ : Nat) :
    escape_json_parse json ⟨fr, b₁⟩ = escape_json_parse json ⟨fr, b₂⟩
    ∧ estimated_capacity json ⟨fr, b₁⟩ + b₂ =
      estimated_capacity json ⟨fr, b₂⟩ + b₁ := by
  constructor
  · rw [escape_json_parse_eq, escape_json_parse_eq]
  · simp only [estimated_capacity]
    omega

/-- C9. The scan loop is safe on every well-formed UTF-8 input: the
byte-level loop (byte offsets as Rust's `match_indices` yields them)
produces exactly the UTF-8 encoding of the character-level result, the
match offsets are strictly increasing (so `last`, which is the previous
match offset or 0, never exceeds the current `idx`), and every offset is
in bounds and on a character boundary — the byte there starts (and is)
an ASCII character — so every slice `json[last..idx]` and `json[last..]`
is in bounds and valid, including for adjacent escapable characters. -/
theorem escape_scan_safety_C9 (s : List Char) :
    escLoop 0x5C isEscByte (utf8Encode s) = utf8Encode (escLoop '\\' isEscChar s)
    ∧ List.Pairwise (· < ·) (matchIndicesP isEscByte (utf8Encode s))
    ∧ (∀ i ∈ matchIndicesP isEscByte (utf8Encode s),
        i < (utf8Encode s).length ∧
        ∃ pre suf, s = pre ++ suf ∧ suf ≠ [] ∧ i = (utf8Encode pre).length)
    ∧ ∀ (l₁ : List Nat) (i : Nat) (l₂ : List Nat),
        matchIndicesP isEscByte (utf8Encode s) = l₁ ++ i :: l₂ →
        (l₁.foldl (escStep 0x5C (utf8Encode s)) ([], 0)).2 ≤ i := by
  refine ⟨?_, matchIndicesP_sorted _ _, fun i hi => ?_, fun l₁ i l₂ hsplit => ?_⟩
  · rw [escLoop_eq_escBody, escLoop_eq_escBody, escBody_utf8]
  · refine ⟨matchIndicesP_lt_length _ _ i hi, ?_⟩
    obtain ⟨pre, suf, h1, h2, h3⟩ := matchIndices_utf8_boundary s 0 i hi
    exact ⟨pre, suf, h1, h2, by omega⟩
  · rw [escStep_foldl_snd]
    have hpw : List.Pairwise (· < ·) (l₁ ++ i :: l₂) :=
      hsplit ▸ matchIndicesP_sorted isEscByte (utf8Encode s)
    cases l₁ with
    | nil => exact Nat.zero_le i
    | cons x xs =>
      have hmem := getLastD_mem_cons xs x 0
      have hrel := (List.pairwise_append.mp hpw).2.2
      exact Nat.le_of_lt (hrel _ hmem i (by simp))

theorem escape_scan_safety_C9_witness :
    2 < (utf8Encode ['é', '\'']).length ∧
      ∃ pre suf, (['é', '\''] : List Char) = pre ++ suf ∧ suf ≠ [] ∧
        2 = (utf8Encode pre).length :=
  (escape_scan_safety_C9 ['é', '\'']).2.2.1 2 (by decide)

/-- C10. Render computes every field's replacement even when its
placeholder is absent from the document: an Escaped field whose
serialization fails aborts the whole render with that error although its
placeholder does not occur, and a counter field whose placeholder is
absent still has its generator run exactly once (final counter `n + 1`)
while the document comes back unchanged. -/
theorem render_eager_fields_C10 (opts : Options) (σ : Type) :
    (∀ (fs₁ : List (TemplateField σ)) (name : List Char)
        (g : σ → Except SerError (List Char) × σ)
        (fs₂ : List (TemplateField σ)) (doc : List Char) (s : σ)
        (e : SerError) (s'' : σ),
      allSucceedB fs₁ s = true →
      g (genStates fs₁ s) = (.error e, s'') →
      ¬ ((⟨name, .escaped g⟩ : TemplateField σ).placeholder <:+: doc) →
      renderFields opts (fs₁ ++ (⟨name, .escaped g⟩ : TemplateField σ) :: fs₂)
        doc s = (.error e, s''))
    ∧ ∀ (name : List Char) (r : Bool) (t doc : List Char) (n : Nat),
      ¬ (placeholderOf r name <:+: doc) →
      renderFields opts [counterTF name r t] doc n = (.ok doc, n + 1) := by
  constructor
  · intro fs₁ name g fs₂ doc s e s'' hall hg _
    have hgen : genStep (⟨name, .escaped g⟩ : TemplateField σ)
        (genStates fs₁ s) = (.error e, s'') := by
      simp [genStep, hg, Except.map]
    exact renderFields_append_error opts fs₁ _ fs₂ doc s e s'' hall hgen
  · intro name r t doc n habs
    have hall : allSucceedB [counterTF name r t] n = true := by
      cases r <;> rfl
    have habs' : ∀ f ∈ [counterTF name r t], ¬ f.placeholder <:+: doc := by
      intro f hf
      rw [List.mem_singleton.mp hf, placeholder_counterTF]
      exact habs
    rw [renderFields_id_of_absent opts [counterTF name r t] doc n hall habs']
    have : genStates [counterTF name r t] n = n + 1 := by
      cases r <;> rfl
    rw [this]

theorem render_eager_fields_C10_witness :
    renderFields Options.default
      ([] ++ (⟨"z".data, .escaped fun s : Unit =>
        (.error ⟨"boom".data⟩, s)⟩ : TemplateField Unit) :: [])
      "nothing".data () = (.error ⟨"boom".data⟩, ()) :=
  (render_eager_fields_C10 Options.default Unit).1 [] "z".data
    (fun s : Unit => (.error ⟨"boom".data⟩, s)) [] "nothing".data ()
    ⟨"boom".data⟩ () (by decide) rfl (by decide)

end StJ
